import Mathlib

/-!
Verification of the sequence-api subsequence pipeline.

We give a shallow embedding of the core of the repository:
`app/services/subsequence_service.py` (canonicalization, subsequence
enumeration, the create/list orchestration) and
`app/repositories/subsequence_repo.py` (content hashing, individual upsert,
bulk insert, and the `latest_grouped` aggregation), over an explicit store
state that models the two MongoDB collections together with the global
unique index on `items_hash` declared in `app/db/mongo.py`.

Machine-level conventions of the embedding:
* Python `str(x)` for an `int` is modelled as its decimal character list
  (`intStr`), and `",".join(...)` as `joinComma`.
* `hashlib.sha256(...).hexdigest()` is an external library call; the digest
  is modelled by the canonical key string fed to it.  SHA-256 is a
  fixed-length cryptographic digest and the specification's own hash
  property ("equal digests iff equal value sets") is only meaningful under
  the standard collision-freeness reading, under which digest equality and
  key equality coincide.
* Python `sorted(...)` (a stable ascending sort) is modelled by
  `List.insertionSort (· ≤ ·)`; on integers any ascending sort of the same
  multiset yields the same list, so the choice of algorithm is immaterial.
* `datetime.now(timezone.utc)` is modelled by a monotone `Nat` clock carried
  in the store state.
* MongoDB ObjectIds (`bson.ObjectId`) are modelled as their 24-character
  lowercase-hex string form; driver-side id generation is modelled by a
  counter rendered in that form.
-/

namespace SeqApi

/-! ### Python `str` of an integer, and `",".join` -/

/-- Structural worker for `natDigits`; the fuel argument only forces
termination and is irrelevant once it exceeds the value. -/
def natDigitsGo : Nat → Nat → List Char
  | 0, _ => []
  | fuel + 1, n =>
      if n < 10 then [Nat.digitChar n]
      else natDigitsGo fuel (n / 10) ++ [Nat.digitChar (n % 10)]

/-- Decimal digit characters of a natural number, most significant first.
Models Python `str(n)` for `n ≥ 0`. -/
def natDigits (n : Nat) : List Char :=
  natDigitsGo (n + 1) n

theorem natDigitsGo_fuel :
    ∀ (f : Nat) (g n : Nat), n < f → n < g →
      natDigitsGo f n = natDigitsGo g n := by
  intro f
  induction f with
  | zero => intro g n hf _; omega
  | succ f ih =>
    intro g n hf hg
    cases g with
    | zero => omega
    | succ g =>
      rw [natDigitsGo, natDigitsGo]
      split
      · rfl
      · rename_i h10
        have : n / 10 < n := Nat.div_lt_self (by omega) (by omega)
        rw [ih g (n / 10) (by omega) (by omega)]

/-- The intended recursive unfolding of `natDigits`. -/
theorem natDigits_eq (n : Nat) :
    natDigits n =
      if n < 10 then [Nat.digitChar n]
      else natDigits (n / 10) ++ [Nat.digitChar (n % 10)] := by
  rw [natDigits, natDigitsGo]
  split
  · rfl
  · rename_i h10
    have hlt : n / 10 < n := Nat.div_lt_self (by omega) (by omega)
    rw [natDigitsGo_fuel n (n / 10 + 1) (n / 10) (by omega) (by omega)]
    rfl

/-- Python `str(x)` for an `int`: decimal digits, with a leading `'-'` for
negative values. -/
def intStr (x : Int) : List Char :=
  if x < 0 then '-' :: natDigits (-x).toNat else natDigits x.toNat

/-- Python `",".join(strs)`: the chunks interleaved with single commas. -/
def joinComma : List (List Char) → List Char
  | [] => []
  | [s] => s
  | s :: t :: rest => s ++ ',' :: joinComma (t :: rest)

/-- Python `sorted(l)` on integers: ascending sort. -/
def pySorted (l : List Int) : List Int :=
  List.insertionSort (· ≤ ·) l

/-- `subsequence_repo._hash_items`:
`key = ",".join(str(x) for x in sorted(items))`, then the SHA-256 digest of
`key`, modelled by `key` itself (see the header note on SHA-256). -/
def _hash_items (items : List Int) : List Char :=
  joinComma ((pySorted items).map intStr)

/-- `subsequence_service.canonical_sequence`: Python `sorted(set(items))` —
the distinct values of the input, in ascending order. -/
def canonical_sequence (items : List Int) : List Int :=
  pySorted items.dedup

/-! ### Facts about the decimal encoding -/

theorem natDigits_ne_nil (n : Nat) : natDigits n ≠ [] := by
  rw [natDigits_eq]
  split <;> simp

theorem mem_natDigits {c : Char} :
    ∀ {n : Nat}, c ∈ natDigits n → ∃ d, d < 10 ∧ c = Nat.digitChar d := by
  intro n
  induction n using Nat.strong_induction_on with
  | _ n ih =>
    intro hc
    rw [natDigits_eq] at hc
    split at hc
    · rename_i h
      simp only [List.mem_singleton] at hc
      exact ⟨n, h, hc⟩
    · rename_i h
      rcases List.mem_append.1 hc with h1 | h1
      · exact ih (n / 10) (by omega) h1
      · simp only [List.mem_singleton] at h1
        exact ⟨n % 10, by omega, h1⟩

/-- Decimal decoder used to invert `natDigits`. -/
def decNat (l : List Char) : Nat :=
  l.foldl (fun acc c => 10 * acc + (c.toNat - 48)) 0

theorem decNat_go (l : List Char) :
    ∀ a, l.foldl (fun acc c => 10 * acc + (c.toNat - 48)) a =
      a * 10 ^ l.length + decNat l := by
  induction l with
  | nil => intro a; simp [decNat]
  | cons c l ih =>
    intro a
    simp only [List.foldl_cons, List.length_cons]
    rw [ih]
    have h0 : decNat (c :: l) = (c.toNat - 48) * 10 ^ l.length + decNat l := by
      simp only [decNat, List.foldl_cons]
      rw [ih]
      simp [decNat]
    rw [h0]
    ring

theorem decNat_natDigits : ∀ n, decNat (natDigits n) = n := by
  intro n
  induction n using Nat.strong_induction_on with
  | _ n ih =>
    rw [natDigits_eq]
    split
    · rename_i h
      exact (by decide : ∀ d, d < 10 → decNat [Nat.digitChar d] = d) n h
    · rename_i h
      have hmod : (Nat.digitChar (n % 10)).toNat - 48 = n % 10 := by
        exact (by decide : ∀ d, d < 10 → (Nat.digitChar d).toNat - 48 = d)
          _ (by omega)
      have ih' := ih (n / 10) (by omega)
      simp only [decNat, List.foldl_append, List.foldl_cons,
        List.foldl_nil] at ih' ⊢
      rw [ih', hmod]
      omega

theorem natDigits_inj {m n : Nat} (h : natDigits m = natDigits n) : m = n := by
  have := decNat_natDigits m
  rw [h, decNat_natDigits] at this
  omega

theorem intStr_ne_nil (x : Int) : intStr x ≠ [] := by
  rw [intStr]
  split
  · simp
  · exact natDigits_ne_nil _

theorem comma_not_mem_natDigits (n : Nat) : ',' ∉ natDigits n := by
  intro h
  obtain ⟨d, hd, hc⟩ := mem_natDigits h
  revert hc
  revert hd
  revert d
  decide

theorem dash_not_mem_natDigits (n : Nat) : '-' ∉ natDigits n := by
  intro h
  obtain ⟨d, hd, hc⟩ := mem_natDigits h
  revert hc
  revert hd
  revert d
  decide

theorem comma_not_mem_intStr (x : Int) : ',' ∉ intStr x := by
  rw [intStr]
  split
  · intro h
    rcases List.mem_cons.1 h with h | h
    · exact absurd h (by decide)
    · exact comma_not_mem_natDigits _ h
  · exact comma_not_mem_natDigits _

theorem intStr_inj {x y : Int} (h : intStr x = intStr y) : x = y := by
  rw [intStr, intStr] at h
  split at h <;> split at h
  · rename_i hx hy
    have := natDigits_inj (List.cons.inj h).2
    omega
  · rename_i hx hy
    exfalso
    apply dash_not_mem_natDigits y.toNat
    rw [← h]
    exact List.mem_cons_self _ _
  · rename_i hx hy
    exfalso
    apply dash_not_mem_natDigits x.toNat
    rw [h]
    exact List.mem_cons_self _ _
  · rename_i hx hy
    have := natDigits_inj h
    omega

/-! ### `",".join` is injective on nonempty comma-free chunks -/

theorem split_comma :
    ∀ (s t u v : List Char), ',' ∉ s → ',' ∉ t →
      s ++ ',' :: u = t ++ ',' :: v → s = t ∧ u = v := by
  intro s
  induction s with
  | nil =>
    intro t u v _ ht h
    cases t with
    | nil => simpa using h
    | cons c t' =>
      exfalso
      simp only [List.nil_append, List.cons_append, List.cons.injEq] at h
      exact ht (h.1 ▸ List.mem_cons_self _ _)
  | cons c s' ih =>
    intro t u v hs ht h
    cases t with
    | nil =>
      exfalso
      simp only [List.cons_append, List.nil_append, List.cons.injEq] at h
      exact hs (h.1 ▸ List.mem_cons_self _ _)
    | cons d t' =>
      simp only [List.cons_append, List.cons.injEq] at h
      obtain ⟨h1, h2⟩ := h
      have hs' : ',' ∉ s' := fun hm => hs (List.mem_cons_of_mem _ hm)
      have ht' : ',' ∉ t' := fun hm => ht (List.mem_cons_of_mem _ hm)
      obtain ⟨h3, h4⟩ := ih t' u v hs' ht' h2
      exact ⟨by rw [h1, h3], h4⟩

theorem comma_mem_joinComma (t r : List Char) (rest : List (List Char)) :
    ',' ∈ joinComma (t :: r :: rest) := by
  rw [joinComma]
  exact List.mem_append.2 (Or.inr (List.mem_cons_self _ _))

theorem joinComma_inj :
    ∀ (l₁ l₂ : List (List Char)),
      (∀ s ∈ l₁, s ≠ [] ∧ ',' ∉ s) → (∀ s ∈ l₂, s ≠ [] ∧ ',' ∉ s) →
      joinComma l₁ = joinComma l₂ → l₁ = l₂ := by
  intro l₁
  induction l₁ with
  | nil =>
    intro l₂ _ h₂ h
    cases l₂ with
    | nil => rfl
    | cons t rest =>
      exfalso
      cases rest with
      | nil =>
        exact (h₂ t (List.mem_cons_self _ _)).1 (by simpa [joinComma] using h.symm)
      | cons r rs =>
        rw [joinComma] at h
        exact absurd h.symm (by simp [joinComma])
  | cons s srest ih =>
    intro l₂ h₁ h₂ h
    cases l₂ with
    | nil =>
      exfalso
      cases srest with
      | nil =>
        exact (h₁ s (List.mem_cons_self _ _)).1 (by simpa [joinComma] using h)
      | cons r rs =>
        rw [joinComma] at h
        exact absurd h (by simp [joinComma])
    | cons t trest =>
      cases srest with
      | nil =>
        cases trest with
        | nil =>
          simp only [joinComma] at h
          rw [h]
        | cons t₂ ts =>
          exfalso
          apply (h₁ s (List.mem_cons_self _ _)).2
          rw [show joinComma [s] = s from rfl] at h
          rw [h]
          exact comma_mem_joinComma t t₂ ts
      | cons s₂ ss =>
        cases trest with
        | nil =>
          exfalso
          apply (h₂ t (List.mem_cons_self _ _)).2
          rw [show joinComma [t] = t from rfl] at h
          rw [← h]
          exact comma_mem_joinComma s s₂ ss
        | cons t₂ ts =>
          rw [joinComma, joinComma] at h
          obtain ⟨hst, hrest⟩ := split_comma s t _ _
            (h₁ s (List.mem_cons_self _ _)).2 (h₂ t (List.mem_cons_self _ _)).2 h
          have := ih (t₂ :: ts)
            (fun x hx => h₁ x (List.mem_cons_of_mem _ hx))
            (fun x hx => h₂ x (List.mem_cons_of_mem _ hx))
            hrest
          rw [hst, this]

/-! ### Sorting facts -/

theorem pySorted_perm (l : List Int) : List.Perm (pySorted l) l :=
  List.perm_insertionSort _ l

theorem pySorted_sorted (l : List Int) : (pySorted l).Sorted (· ≤ ·) :=
  List.sorted_insertionSort _ l

/-- Two integer lists have the same ascending sort iff they are permutations
of one another (equal as multisets). -/
theorem pySorted_eq_iff {X Y : List Int} :
    pySorted X = pySorted Y ↔ List.Perm X Y := by
  constructor
  · intro h
    exact ((pySorted_perm X).symm.trans (h ▸ pySorted_perm Y)).symm.symm
  · intro h
    exact List.eq_of_perm_of_sorted
      ((pySorted_perm X).trans (h.trans (pySorted_perm Y).symm))
      (pySorted_sorted X) (pySorted_sorted Y)

/-- The hash key function is injective up to multiset equality of the input:
`_hash_items X = _hash_items Y` iff `X` and `Y` hold the same values with the
same multiplicities. -/
theorem hash_items_eq_iff {X Y : List Int} :
    _hash_items X = _hash_items Y ↔ List.Perm X Y := by
  rw [_hash_items, _hash_items]
  constructor
  · intro h
    have chunks : ∀ (l : List Int), ∀ s ∈ l.map intStr, s ≠ [] ∧ ',' ∉ s := by
      intro l s hs
      obtain ⟨x, _, rfl⟩ := List.mem_map.1 hs
      exact ⟨intStr_ne_nil x, comma_not_mem_intStr x⟩
    have hmap := joinComma_inj _ _ (chunks (pySorted X)) (chunks (pySorted Y)) h
    have : pySorted X = pySorted Y :=
      List.map_injective_iff.2 (fun a b hab => intStr_inj hab) hmap
    exact pySorted_eq_iff.1 this
  · intro h
    rw [pySorted_eq_iff.2 h]

/-! ### Canonicalization facts (§4.1 of the spec) -/

theorem canonical_nodup (l : List Int) : (canonical_sequence l).Nodup :=
  ((pySorted_perm l.dedup).nodup_iff).2 (List.nodup_dedup l)

theorem canonical_sorted_le (l : List Int) :
    (canonical_sequence l).Sorted (· ≤ ·) :=
  pySorted_sorted l.dedup

theorem canonical_sorted_lt (l : List Int) :
    (canonical_sequence l).Sorted (· < ·) :=
  (canonical_sorted_le l).lt_of_le (canonical_nodup l)

theorem canonical_mem (l : List Int) (x : Int) :
    x ∈ canonical_sequence l ↔ x ∈ l := by
  rw [canonical_sequence, (pySorted_perm l.dedup).mem_iff, List.mem_dedup]

/-- Canonicalization depends only on the set of values in the input. -/
theorem canonical_eq_of_same_mem {L L' : List Int}
    (h : ∀ x, x ∈ L ↔ x ∈ L') :
    canonical_sequence L = canonical_sequence L' := by
  have hperm : List.Perm L.dedup L'.dedup :=
    (List.perm_ext_iff_of_nodup (List.nodup_dedup L) (List.nodup_dedup L')).2
      (by intro a; rw [List.mem_dedup, List.mem_dedup]; exact h a)
  exact pySorted_eq_iff.2 hperm

/-! ### Subsequence enumeration (§4.2): `generate_subsequences` -/

/-- Python `itertools.combinations(l, k)`: all `k`-element subsequences of
`l`, in lexicographic order of the chosen index positions. -/
def combinations : Nat → List Int → List (List Int)
  | 0, _ => [[]]
  | _ + 1, [] => []
  | k + 1, x :: xs =>
      ((combinations k xs).map (fun c => x :: c)) ++ combinations (k + 1) xs

/-- `subsequence_service.generate_subsequences`:
`for k in range(1, n + 1): for combo in combinations(items, k): yield combo`,
materialized as a list (the service materializes it with `list(...)`). -/
def generate_subsequences (items : List Int) : List (List Int) :=
  (List.range' 1 items.length).flatMap (fun k => combinations k items)

theorem length_combinations :
    ∀ (l : List Int) (k : Nat), (combinations k l).length = l.length.choose k := by
  intro l
  induction l with
  | nil =>
    intro k
    cases k with
    | zero => rfl
    | succ k => rfl
  | cons x xs ih =>
    intro k
    cases k with
    | zero => rfl
    | succ k =>
      simp only [combinations, List.length_append, List.length_map, ih,
        List.length_cons, Nat.choose_succ_succ]

theorem mem_combinations_length :
    ∀ {k : Nat} {l : List Int} {c : List Int},
      c ∈ combinations k l → c.length = k := by
  intro k
  induction k using Nat.strong_induction_on with
  | _ k ih =>
    intro l
    induction l with
    | nil =>
      intro c hc
      cases k with
      | zero => simp only [combinations, List.mem_singleton] at hc; simp [hc]
      | succ k => simp [combinations] at hc
    | cons x xs ihl =>
      intro c hc
      cases k with
      | zero => simp only [combinations, List.mem_singleton] at hc; simp [hc]
      | succ k =>
        simp only [combinations, List.mem_append, List.mem_map] at hc
        rcases hc with ⟨c', hc', rfl⟩ | hc
        · simp [ih k (by omega) hc']
        · exact ihl hc

theorem mem_combinations_sublist :
    ∀ {k : Nat} {l : List Int} {c : List Int},
      c ∈ combinations k l → c.Sublist l := by
  intro k
  induction k using Nat.strong_induction_on with
  | _ k ih =>
    intro l
    induction l with
    | nil =>
      intro c hc
      cases k with
      | zero => simp only [combinations, List.mem_singleton] at hc; simp [hc]
      | succ k => simp [combinations] at hc
    | cons x xs ihl =>
      intro c hc
      cases k with
      | zero =>
        simp only [combinations, List.mem_singleton] at hc
        simp [hc]
      | succ k =>
        simp only [combinations, List.mem_append, List.mem_map] at hc
        rcases hc with ⟨c', hc', rfl⟩ | hc
        · exact (ih k (by omega) hc').cons₂ x
        · exact (ihl hc).cons x

/-- Within one size group the enumeration is strictly increasing in the
lexicographic order of value tuples, provided the input is strictly
ascending. -/
theorem pairwise_lex_combinations :
    ∀ {l : List Int}, l.Pairwise (· < ·) →
      ∀ (k : Nat), (combinations k l).Pairwise (List.Lex (· < ·)) := by
  intro l
  induction l with
  | nil =>
    intro _ k
    cases k with
    | zero => simp [combinations]
    | succ k => simp [combinations]
  | cons x xs ih =>
    intro hl k
    have hx : ∀ y ∈ xs, x < y := fun y hy => (List.pairwise_cons.1 hl).1 y hy
    have hxs : xs.Pairwise (· < ·) := (List.pairwise_cons.1 hl).2
    cases k with
    | zero => simp [combinations]
    | succ k =>
      rw [combinations, List.pairwise_append]
      refine ⟨?_, ih hxs (k + 1), ?_⟩
      · rw [List.pairwise_map]
        exact (ih hxs k).imp (fun h => List.Lex.cons h)
      · intro a ha b hb
        obtain ⟨a', _, rfl⟩ := List.mem_map.1 ha
        have hblen : b.length = k + 1 := mem_combinations_length hb
        cases b with
        | nil => simp at hblen
        | cons y b' =>
          have hy : y ∈ xs :=
            (mem_combinations_sublist hb).subset (List.mem_cons_self _ _)
          exact List.Lex.rel (hx y hy)

/-! ### Counting: `2 ^ n - 1` subsequences -/

theorem sum_map_range (f : Nat → Nat) :
    ∀ n, ((List.range n).map f).sum = ∑ i ∈ Finset.range n, f i := by
  intro n
  induction n with
  | zero => simp
  | succ n ih =>
    rw [List.range_succ, List.map_append, List.sum_append,
      Finset.sum_range_succ, ih]
    simp

theorem sum_choose_tail (n : Nat) :
    ((List.range' 1 n).map (fun k => n.choose k)).sum = 2 ^ n - 1 := by
  rw [List.range'_eq_map_range, List.map_map, sum_map_range]
  have h2 := Finset.sum_range_succ' (fun i => n.choose i) n
  have h3 := Nat.sum_range_choose n
  have h4 : ∑ i ∈ Finset.range n, n.choose (1 + i) =
      ∑ i ∈ Finset.range n, n.choose (i + 1) := by
    apply Finset.sum_congr rfl
    intro i _
    rw [Nat.add_comm]
  simp only [Function.comp] at *
  rw [h4]
  simp only [Nat.choose_zero_right] at h2
  omega

theorem length_generate_subsequences (l : List Int) :
    (generate_subsequences l).length = 2 ^ l.length - 1 := by
  rw [generate_subsequences, List.flatMap, List.length_flatten, List.map_map]
  have : ((List.range' 1 l.length).map
        (List.length ∘ fun k => combinations k l)) =
      (List.range' 1 l.length).map (fun k => l.length.choose k) := by
    apply List.map_congr_left
    intro k _
    simp [Function.comp, length_combinations]
  rw [this, sum_choose_tail]

/-! ### The global ordering of the enumeration -/

/-- The ordering contract of §4.2: earlier output is either strictly
smaller, or of equal size and lexicographically strictly smaller. -/
def sizeLex (a b : List Int) : Prop :=
  a.length < b.length ∨ (a.length = b.length ∧ List.Lex (· < ·) a b)

theorem sizeLex_ne {a b : List Int} (h : sizeLex a b) : a ≠ b := by
  rintro rfl
  rcases h with h | ⟨_, h⟩
  · omega
  · exact irrefl_of (List.Lex (· < ·)) a h

theorem pairwise_sizeLex_generate {l : List Int} (hl : l.Pairwise (· < ·)) :
    (generate_subsequences l).Pairwise sizeLex := by
  rw [generate_subsequences, List.pairwise_flatMap]
  constructor
  · intro k _
    apply (pairwise_lex_combinations hl k).imp_of_mem
    intro a b ha hb hab
    exact Or.inr ⟨by rw [mem_combinations_length ha, mem_combinations_length hb],
      hab⟩
  · have hr : (List.range' 1 l.length).Pairwise (· < ·) :=
      List.pairwise_lt_range' ..
    apply hr.imp
    intro k₁ k₂ hk x hx y hy
    exact Or.inl (by rw [mem_combinations_length hx,
      mem_combinations_length hy]; exact hk)

theorem mem_generate_subsequences {l c : List Int}
    (hc : c ∈ generate_subsequences l) : c ≠ [] ∧ c.Sublist l := by
  rw [generate_subsequences, List.mem_flatMap] at hc
  obtain ⟨k, hk, hck⟩ := hc
  rw [List.mem_range'] at hk
  obtain ⟨i, _, rfl⟩ := hk
  refine ⟨?_, mem_combinations_sublist hck⟩
  have := mem_combinations_length hck
  intro hnil
  rw [hnil] at this
  simp at this
  omega

/-! ### The store model (two collections + the unique `items_hash` index) -/

/-- Hex rendering of a counter, `k` characters wide (most significant
first, leading zeros). -/
def hexPad : Nat → Nat → List Char
  | 0, _ => []
  | k + 1, n => hexPad k (n / 16) ++ [Nat.digitChar (n % 16)]

/-- Modelled from the store driver: MongoDB generates a fresh ObjectId for
every inserted document; its string form is 24 lowercase hex characters.
We model the generator by a counter rendered in that form. -/
def oidString (n : Nat) : String :=
  ⟨hexPad 24 n⟩

/-- Modelled from `bson.ObjectId`: the constructor accepts exactly a
24-character hexadecimal string (raising otherwise). -/
def isValidObjectId (s : String) : Bool :=
  s.length == 24 &&
    s.data.all (fun c => c.isDigit || ('a' ≤ c && c ≤ 'f') ||
      ('A' ≤ c && c ≤ 'F'))

/-- A BSON value stored in the `sequence_id` field: either a real ObjectId
(rendered as its hex string) or a plain string. -/
inductive BsonId where
  | oid (s : String)
  | str (s : String)
deriving DecidableEq

/-- A document of the `sequences` collection. -/
structure SeqRecord where
  oid : String
  items : List Int
  created_at : Nat
deriving DecidableEq

/-- A document of the `subsequences` collection. -/
structure SubRecord where
  items : List Int
  items_hash : List Char
  sequence_id : BsonId
  created_at : Nat
deriving DecidableEq

/-- The database state: the two collections, the driver's id counter, and a
monotone clock standing in for `datetime.now`. -/
structure Store where
  sequences : List SeqRecord
  subsequences : List SubRecord
  nextId : Nat
  now : Nat
deriving DecidableEq

/-- Whether a record with the given content hash exists; the unique index
on `items_hash` (see `app/db/mongo.py`) makes an insert with a present hash
raise `DuplicateKeyError`. -/
def hashPresent (h : List Char) (st : Store) : Bool :=
  st.subsequences.any (fun r => r.items_hash == h)

/-- `SubsequenceRepository.insert_sequence`. -/
def insert_sequence (items : List Int) (st : Store) : String × Store :=
  let id := oidString st.nextId
  (id,
   { st with
     sequences := st.sequences ++ [⟨id, items, st.now⟩],
     nextId := st.nextId + 1,
     now := st.now + 1 })

/-- The `sequence_id` value stored by the individual-upsert path:
`ObjectId(sequence_id)` when parsing succeeds, the raw string otherwise
(`subsequence_repo.py` lines 45–48). -/
def upsert_seq_id_value (sequence_id : String) : BsonId :=
  if isValidObjectId sequence_id then .oid sequence_id else .str sequence_id

/-- `SubsequenceRepository.upsert_subsequence`: build the document, attempt
an insert, and silently ignore `DuplicateKeyError`. -/
def upsert_subsequence (sequence_id : String) (items : List Int)
    (st : Store) : Store :=
  let h := _hash_items items
  let doc : SubRecord := ⟨pySorted items, h, upsert_seq_id_value sequence_id, st.now⟩
  if hashPresent h st then st
  else { st with subsequences := st.subsequences ++ [doc], now := st.now + 1 }

/-- Counters reported by a `bulk_write` result. -/
structure BulkResult where
  upserted_count : Nat
  modified_count : Nat
deriving DecidableEq

/-- One `UpdateOne({items_hash: h}, {$setOnInsert: doc}, upsert=True)`
applied to the store: if the filter matches, `$setOnInsert` changes nothing
(and `modified_count` stays put); otherwise the document is inserted and
`upserted_count` grows. -/
def applyUpdateOne (sequence_id : String) (now : Nat)
    (acc : BulkResult × Store) (items : List Int) : BulkResult × Store :=
  let h := _hash_items items
  if hashPresent h acc.2 then acc
  else
    ({ acc.1 with upserted_count := acc.1.upserted_count + 1 },
     { acc.2 with
       subsequences :=
         acc.2.subsequences ++ [⟨pySorted items, h, .str sequence_id, now⟩] })

/-- `SubsequenceRepository.insert_subsequences_bulk`: empty input returns 0
without contacting the store; otherwise one unordered batch of
insert-if-absent-by-hash operations, all stamped with a single timestamp,
whose stored `sequence_id` is the raw string (line 77).  Returns
`upserted_count + modified_count`. -/
def insert_subsequences_bulk (sequence_id : String)
    (subsequences : List (List Int)) (st : Store) : Nat × Store :=
  if subsequences.isEmpty then (0, st)
  else
    let r := subsequences.foldl (applyUpdateOne sequence_id st.now) (⟨0, 0⟩, st)
    (r.1.upserted_count + r.1.modified_count, { r.2 with now := r.2.now + 1 })

/-! ### The service orchestration -/

/-- The two domain errors `SubsequenceService.create_from_sequence` raises;
`tooLarge n limit maxSubs` stands for the Spanish f-string reporting the
actual canonical length `n`, the limit (18), and the subset count the limit
implies, formatted as `262,143`. -/
inductive CreateError where
  | emptySequence
  | tooLarge (n limit maxSubs : Nat)
deriving DecidableEq

/-- The dict returned by a successful create:
`{"id": seq_id, "items": canon, "total_subsequences": total_count}`. -/
structure CreateResult where
  id : String
  items : List Int
  total_subsequences : Nat
deriving DecidableEq

/-- `SubsequenceService.create_from_sequence`. -/
def create_from_sequence (items : List Int) (st : Store) :
    Except CreateError CreateResult × Store :=
  let canon := canonical_sequence items
  let n := canon.length
  if n = 0 then (.error .emptySequence, st)
  else if n > 18 then (.error (.tooLarge n 18 (2 ^ 18 - 1)), st)
  else
    let idSt := insert_sequence canon st
    let subsequences := generate_subsequences canon
    let total_count := subsequences.length
    let st2 :=
      if total_count ≥ 100 then
        (insert_subsequences_bulk idSt.1 subsequences idSt.2).2
      else
        subsequences.foldl
          (fun s subseq => upsert_subsequence idSt.1 subseq s) idSt.2
    (.ok ⟨idSt.1, canon, total_count⟩, st2)

/-! ### The aggregation pipeline (`latest_grouped`) and `list_latest` -/

/-- `$toObjectId` applied to a stored `sequence_id` value: ObjectIds pass
through, strings are parsed (every string this system stores is a rendered
ObjectId, so parsing succeeds). -/
def toOidStr : BsonId → String
  | .oid s => s
  | .str s => s

/-- The distinct group keys produced by `$group`, in order of first
appearance (MongoDB leaves group order unspecified; any fixed choice is a
faithful refinement and the sort stage below decides the final order). -/
def distinctKeys (ks : List BsonId) : List BsonId :=
  ks.foldl (fun acc k => if k ∈ acc then acc else acc ++ [k]) []

/-- One group out of `$group`: the key, the `$push`ed item lists (in store
order) and the `$max` of the members' creation times. -/
structure AggGroup where
  key : BsonId
  subsequences : List (List Int)
  created_at : Nat
deriving DecidableEq

def maxCreated (rs : List SubRecord) : Nat :=
  (rs.map (fun r => r.created_at)).foldl Nat.max 0

def groupFor (subs : List SubRecord) (k : BsonId) : AggGroup :=
  let rs := subs.filter (fun r => r.sequence_id == k)
  ⟨k, rs.map (fun r => r.items), maxCreated rs⟩

/-- `{"$sort": {"created_at": -1}}`: groups with later maximal creation
time come first. -/
def groupGe (a b : AggGroup) : Prop :=
  b.created_at ≤ a.created_at

instance : DecidableRel groupGe :=
  fun a b => decidable_of_iff (b.created_at ≤ a.created_at) Iff.rfl

instance : IsTotal AggGroup groupGe :=
  ⟨fun a b => (Nat.le_total b.created_at a.created_at).elim Or.inl Or.inr⟩

instance : IsTrans AggGroup groupGe :=
  ⟨fun _ _ _ h1 h2 => Nat.le_trans h2 h1⟩

/-- The grouped collection after `$group` and `$sort` (before `$limit`). -/
def sortedGroups (st : Store) : List AggGroup :=
  List.insertionSort groupGe
    ((distinctKeys (st.subsequences.map (fun r => r.sequence_id))).map
      (groupFor st.subsequences))

/-- `SubsequenceRepository.latest_grouped`: sort the groups by maximal
creation time descending, keep the first `limit`, join each survivor with
its parent sequence (`$lookup` + `$unwind` drop groups with no parent), and
project to `(sequence, subsequences)`. -/
def latest_grouped (limit : Nat) (st : Store) :
    List (List Int × List (List Int)) :=
  ((sortedGroups st).take limit).filterMap (fun g =>
    match st.sequences.find? (fun sq => sq.oid == toOidStr g.key) with
    | some sq => some (sq.items, g.subsequences)
    | none => none)

/-- The Python sort key `lambda s: (len(s), s)` as a relation: ascending
length first, then ascending lexicographic order of the value tuple. -/
def subKeyLe (a b : List Int) : Prop :=
  a.length < b.length ∨ (a.length = b.length ∧ (a = b ∨ List.Lex (· < ·) a b))

instance : DecidableRel subKeyLe :=
  fun a b => decidable_of_iff
    (a.length < b.length ∨ (a.length = b.length ∧ (a = b ∨ List.Lex (· < ·) a b)))
    Iff.rfl

theorem subKeyLe_total : ∀ a b, subKeyLe a b ∨ subKeyLe b a := by
  intro a b
  rcases Nat.lt_trichotomy a.length b.length with h | h | h
  · exact Or.inl (Or.inl h)
  · rcases @trichotomous (List Int) (List.Lex (· < ·)) _ a b with hl | rfl | hl
    · exact Or.inl (Or.inr ⟨h, Or.inr hl⟩)
    · exact Or.inl (Or.inr ⟨h, Or.inl rfl⟩)
    · exact Or.inr (Or.inr ⟨h.symm, Or.inr hl⟩)
  · exact Or.inr (Or.inl h)

theorem subKeyLe_trans :
    ∀ a b c, subKeyLe a b → subKeyLe b c → subKeyLe a c := by
  intro a b c h1 h2
  rcases h1 with h1 | ⟨e1, h1⟩ <;> rcases h2 with h2 | ⟨e2, h2⟩
  · exact Or.inl (by omega)
  · exact Or.inl (by omega)
  · exact Or.inl (by omega)
  · refine Or.inr ⟨by omega, ?_⟩
    rcases h1 with rfl | h1
    · exact h2
    · rcases h2 with rfl | h2
      · exact Or.inr h1
      · exact Or.inr (trans_of (List.Lex (· < ·)) h1 h2)

instance : IsTotal (List Int) subKeyLe := ⟨subKeyLe_total⟩

instance : IsTrans (List Int) subKeyLe := ⟨subKeyLe_trans⟩

/-- One element of the list returned by `list_latest`. -/
structure ListItem where
  sequence : List Int
  sub_sequences : List (List Int)
deriving DecidableEq

/-- `SubsequenceService.list_latest`: fetch the grouped documents and sort
each group's subsequences by `(len(s), s)` before returning. -/
def list_latest (limit : Nat) (st : Store) : List ListItem :=
  (latest_grouped limit st).map
    (fun p => ⟨p.1, List.insertionSort subKeyLe p.2⟩)

/-! ### Write-path lemmas -/

theorem upsert_sequences_eq (sid : String) (items : List Int) (st : Store) :
    (upsert_subsequence sid items st).sequences = st.sequences := by
  rw [upsert_subsequence]
  split <;> rfl

theorem upsert_hashPresent_mono (h : List Char) (sid : String)
    (items : List Int) (st : Store) (hp : hashPresent h st = true) :
    hashPresent h (upsert_subsequence sid items st) = true := by
  rw [upsert_subsequence]
  split
  · exact hp
  · rw [hashPresent, List.any_append]
    rw [hashPresent] at hp
    simp [hp]

theorem upsert_hashPresent_self (sid : String) (items : List Int) (st : Store) :
    hashPresent (_hash_items items) (upsert_subsequence sid items st) = true := by
  rw [upsert_subsequence]
  split
  · assumption
  · rw [hashPresent, List.any_append]
    simp [hashPresent]

theorem upsert_of_present (sid : String) (items : List Int) (st : Store)
    (hp : hashPresent (_hash_items items) st = true) :
    upsert_subsequence sid items st = st := by
  rw [upsert_subsequence]
  rw [if_pos hp]

theorem upsert_mem (sid : String) (items : List Int) (st : Store) :
    ∀ rec ∈ (upsert_subsequence sid items st).subsequences,
      rec ∈ st.subsequences ∨ rec.sequence_id = upsert_seq_id_value sid := by
  intro rec hrec
  rw [upsert_subsequence] at hrec
  split at hrec
  · exact Or.inl hrec
  · simp only [List.mem_append, List.mem_singleton] at hrec
    rcases hrec with hrec | rfl
    · exact Or.inl hrec
    · exact Or.inr rfl

/-- The individual-upsert loop of `create_from_sequence`. -/
def upsertAll (sid : String) (subs : List (List Int)) (st : Store) : Store :=
  subs.foldl (fun s subseq => upsert_subsequence sid subseq s) st

theorem upsertAll_sequences (sid : String) (subs : List (List Int)) :
    ∀ st, (upsertAll sid subs st).sequences = st.sequences := by
  induction subs with
  | nil => intro st; rfl
  | cons x xs ih =>
    intro st
    rw [upsertAll, List.foldl_cons]
    rw [show List.foldl (fun s subseq => upsert_subsequence sid subseq s)
      (upsert_subsequence sid x st) xs =
        upsertAll sid xs (upsert_subsequence sid x st) from rfl]
    rw [ih, upsert_sequences_eq]

theorem upsertAll_hashPresent_mono (sid : String) (subs : List (List Int))
    (h : List Char) :
    ∀ st, hashPresent h st = true →
      hashPresent h (upsertAll sid subs st) = true := by
  induction subs with
  | nil => intro st hp; exact hp
  | cons x xs ih =>
    intro st hp
    rw [upsertAll, List.foldl_cons]
    exact ih _ (upsert_hashPresent_mono h sid x st hp)

theorem upsertAll_present (sid : String) (subs : List (List Int)) :
    ∀ st, ∀ x ∈ subs,
      hashPresent (_hash_items x) (upsertAll sid subs st) = true := by
  induction subs with
  | nil => intro st x hx; cases hx
  | cons y ys ih =>
    intro st x hx
    rcases List.mem_cons.1 hx with rfl | hx
    · rw [upsertAll, List.foldl_cons]
      exact upsertAll_hashPresent_mono sid ys _ _
        (upsert_hashPresent_self sid x st)
    · rw [upsertAll, List.foldl_cons]
      exact ih _ x hx

theorem upsertAll_of_all_present (sid : String) (subs : List (List Int)) :
    ∀ st, (∀ x ∈ subs, hashPresent (_hash_items x) st = true) →
      upsertAll sid subs st = st := by
  induction subs with
  | nil => intro st _; rfl
  | cons y ys ih =>
    intro st hall
    rw [upsertAll, List.foldl_cons,
      upsert_of_present sid y st (hall y (List.mem_cons_self _ _))]
    exact ih st (fun x hx => hall x (List.mem_cons_of_mem _ hx))

theorem upsertAll_mem (sid : String) (subs : List (List Int)) :
    ∀ st, ∀ rec ∈ (upsertAll sid subs st).subsequences,
      rec ∈ st.subsequences ∨ rec.sequence_id = upsert_seq_id_value sid := by
  induction subs with
  | nil => intro st rec hrec; exact Or.inl hrec
  | cons y ys ih =>
    intro st rec hrec
    rw [upsertAll, List.foldl_cons] at hrec
    rcases ih _ rec hrec with hmem | hid
    · exact upsert_mem sid y st rec hmem
    · exact Or.inr hid

/-! ### Bulk-path lemmas -/

theorem applyUpdateOne_sequences (sid : String) (now : Nat)
    (acc : BulkResult × Store) (x : List Int) :
    ((applyUpdateOne sid now acc x).2).sequences = acc.2.sequences := by
  rw [applyUpdateOne]
  split <;> rfl

theorem applyUpdateOne_hashPresent_mono (sid : String) (now : Nat)
    (acc : BulkResult × Store) (x : List Int) (h : List Char)
    (hp : hashPresent h acc.2 = true) :
    hashPresent h (applyUpdateOne sid now acc x).2 = true := by
  rw [applyUpdateOne]
  split
  · exact hp
  · rw [hashPresent, List.any_append]
    rw [hashPresent] at hp
    simp [hp]

theorem applyUpdateOne_hashPresent_self (sid : String) (now : Nat)
    (acc : BulkResult × Store) (x : List Int) :
    hashPresent (_hash_items x) (applyUpdateOne sid now acc x).2 = true := by
  rw [applyUpdateOne]
  split
  · assumption
  · rw [hashPresent, List.any_append]
    simp [hashPresent]

theorem applyUpdateOne_of_present (sid : String) (now : Nat)
    (acc : BulkResult × Store) (x : List Int)
    (hp : hashPresent (_hash_items x) acc.2 = true) :
    applyUpdateOne sid now acc x = acc := by
  rw [applyUpdateOne]
  rw [if_pos hp]

theorem bulkFold_sequences (sid : String) (now : Nat)
    (subs : List (List Int)) :
    ∀ acc, ((subs.foldl (applyUpdateOne sid now) acc).2).sequences =
      acc.2.sequences := by
  induction subs with
  | nil => intro acc; rfl
  | cons x xs ih =>
    intro acc
    rw [List.foldl_cons, ih, applyUpdateOne_sequences]

theorem bulkFold_hashPresent_mono (sid : String) (now : Nat)
    (subs : List (List Int)) (h : List Char) :
    ∀ acc, hashPresent h acc.2 = true →
      hashPresent h (subs.foldl (applyUpdateOne sid now) acc).2 = true := by
  induction subs with
  | nil => intro acc hp; exact hp
  | cons x xs ih =>
    intro acc hp
    rw [List.foldl_cons]
    exact ih _ (applyUpdateOne_hashPresent_mono sid now acc x h hp)

theorem bulkFold_present (sid : String) (now : Nat) (subs : List (List Int)) :
    ∀ acc, ∀ x ∈ subs,
      hashPresent (_hash_items x)
        (subs.foldl (applyUpdateOne sid now) acc).2 = true := by
  induction subs with
  | nil => intro acc x hx; cases hx
  | cons y ys ih =>
    intro acc x hx
    rcases List.mem_cons.1 hx with rfl | hx
    · rw [List.foldl_cons]
      exact bulkFold_hashPresent_mono sid now ys _ _
        (applyUpdateOne_hashPresent_self sid now acc x)
    · rw [List.foldl_cons]
      exact ih _ x hx

theorem bulkFold_of_all_present (sid : String) (now : Nat)
    (subs : List (List Int)) :
    ∀ acc, (∀ x ∈ subs, hashPresent (_hash_items x) acc.2 = true) →
      subs.foldl (applyUpdateOne sid now) acc = acc := by
  induction subs with
  | nil => intro acc _; rfl
  | cons y ys ih =>
    intro acc hall
    rw [List.foldl_cons,
      applyUpdateOne_of_present sid now acc y (hall y (List.mem_cons_self _ _))]
    exact ih acc (fun x hx => hall x (List.mem_cons_of_mem _ hx))

theorem bulkFold_mem (sid : String) (now : Nat) (subs : List (List Int)) :
    ∀ acc, ∀ rec ∈ ((subs.foldl (applyUpdateOne sid now) acc).2).subsequences,
      rec ∈ acc.2.subsequences ∨ rec.sequence_id = .str sid := by
  induction subs with
  | nil => intro acc rec hrec; exact Or.inl hrec
  | cons y ys ih =>
    intro acc rec hrec
    rw [List.foldl_cons] at hrec
    rcases ih _ rec hrec with hmem | hid
    · rw [applyUpdateOne] at hmem
      split at hmem
      · exact Or.inl hmem
      · simp only [List.mem_append, List.mem_singleton] at hmem
        rcases hmem with hmem | rfl
        · exact Or.inl hmem
        · exact Or.inr rfl
    · exact Or.inr hid

theorem applyUpdateOne_modified (sid : String) (now : Nat)
    (acc : BulkResult × Store) (x : List Int) :
    ((applyUpdateOne sid now acc x).1).modified_count =
      acc.1.modified_count := by
  rw [applyUpdateOne]
  split <;> rfl

theorem applyUpdateOne_growth (sid : String) (now : Nat)
    (acc : BulkResult × Store) (x : List Int) :
    ((applyUpdateOne sid now acc x).2).subsequences.length +
        acc.1.upserted_count =
      acc.2.subsequences.length +
        ((applyUpdateOne sid now acc x).1).upserted_count := by
  rw [applyUpdateOne]
  split
  · rfl
  · simp only [List.length_append, List.length_singleton]
    omega

theorem bulkFold_count (sid : String) (now : Nat) (subs : List (List Int)) :
    ∀ acc,
      ((subs.foldl (applyUpdateOne sid now) acc).1).modified_count =
        acc.1.modified_count ∧
      ((subs.foldl (applyUpdateOne sid now) acc).2).subsequences.length +
          acc.1.upserted_count =
        acc.2.subsequences.length +
          ((subs.foldl (applyUpdateOne sid now) acc).1).upserted_count := by
  induction subs with
  | nil =>
    intro acc
    exact ⟨rfl, rfl⟩
  | cons y ys ih =>
    intro acc
    rw [List.foldl_cons]
    obtain ⟨ihm, ihu⟩ := ih (applyUpdateOne sid now acc y)
    have hm := applyUpdateOne_modified sid now acc y
    have hg := applyUpdateOne_growth sid now acc y
    exact ⟨by rw [ihm, hm], by omega⟩

/-! ### Bulk operation lemmas -/

theorem insert_subsequences_bulk_nil (sid : String) (st : Store) :
    insert_subsequences_bulk sid [] st = (0, st) :=
  rfl

theorem bulk_sequences (sid : String) (subs : List (List Int)) (st : Store) :
    ((insert_subsequences_bulk sid subs st).2).sequences = st.sequences := by
  simp only [insert_subsequences_bulk]
  split
  · rfl
  · exact bulkFold_sequences sid st.now subs (⟨0, 0⟩, st)

theorem bulk_present (sid : String) (subs : List (List Int)) (st : Store) :
    ∀ x ∈ subs,
      hashPresent (_hash_items x) (insert_subsequences_bulk sid subs st).2 =
        true := by
  simp only [insert_subsequences_bulk]
  split
  · rename_i he
    rw [List.isEmpty_iff] at he
    subst he
    intro x hx
    cases hx
  · intro x hx
    exact bulkFold_present sid st.now subs (⟨0, 0⟩, st) x hx

theorem bulk_of_all_present (sid : String) (subs : List (List Int)) (st : Store)
    (hall : ∀ x ∈ subs, hashPresent (_hash_items x) st = true) :
    (insert_subsequences_bulk sid subs st).1 = 0 ∧
      ((insert_subsequences_bulk sid subs st).2).subsequences =
        st.subsequences := by
  simp only [insert_subsequences_bulk]
  split
  · exact ⟨rfl, rfl⟩
  · rw [bulkFold_of_all_present sid st.now subs (⟨0, 0⟩, st) hall]
    exact ⟨rfl, rfl⟩

theorem bulk_mem (sid : String) (subs : List (List Int)) (st : Store) :
    ∀ rec ∈ ((insert_subsequences_bulk sid subs st).2).subsequences,
      rec ∈ st.subsequences ∨ rec.sequence_id = .str sid := by
  simp only [insert_subsequences_bulk]
  split
  · intro rec hrec
    exact Or.inl hrec
  · intro rec hrec
    exact bulkFold_mem sid st.now subs (⟨0, 0⟩, st) rec hrec

theorem bulk_count_eq_growth (sid : String) (subs : List (List Int))
    (st : Store) :
    (insert_subsequences_bulk sid subs st).1 + st.subsequences.length =
      ((insert_subsequences_bulk sid subs st).2).subsequences.length := by
  simp only [insert_subsequences_bulk]
  split
  · simp
  · obtain ⟨hm, hu⟩ := bulkFold_count sid st.now subs (⟨0, 0⟩, st)
    dsimp only at hm hu ⊢
    omega

theorem bulk_modified_zero (sid : String) (subs : List (List Int))
    (st : Store) :
    ((subs.foldl (applyUpdateOne sid st.now) (⟨0, 0⟩, st)).1).modified_count =
      0 :=
  (bulkFold_count sid st.now subs (⟨0, 0⟩, st)).1

/-! ### The global uniqueness invariant on `items_hash` -/

/-- No two stored subsequence records share a content hash — the invariant
the unique index maintains. -/
def hashesNodup (st : Store) : Prop :=
  (st.subsequences.map (fun r => r.items_hash)).Nodup

theorem hashPresent_false_not_mem {h : List Char} {st : Store}
    (hp : hashPresent h st = false) :
    h ∉ st.subsequences.map (fun r => r.items_hash) := by
  intro hmem
  obtain ⟨r, hr, hrh⟩ := List.mem_map.1 hmem
  rw [hashPresent, List.any_eq_false] at hp
  exact hp r hr (by rw [hrh]; exact beq_self_eq_true h)

theorem upsert_hashesNodup (sid : String) (items : List Int) (st : Store)
    (hn : hashesNodup st) :
    hashesNodup (upsert_subsequence sid items st) := by
  rw [upsert_subsequence]
  split
  · exact hn
  · rename_i hp
    rw [Bool.not_eq_true] at hp
    have hnm := hashPresent_false_not_mem hp
    rw [hashesNodup]
    simp only [List.map_append, List.map_cons, List.map_nil]
    exact List.Nodup.append hn (List.nodup_singleton _)
      (fun a ha hb => by
        simp only [List.mem_singleton] at hb
        exact hnm (hb ▸ ha))

theorem upsertAll_hashesNodup (sid : String) (subs : List (List Int)) :
    ∀ st, hashesNodup st → hashesNodup (upsertAll sid subs st) := by
  induction subs with
  | nil => intro st hn; exact hn
  | cons y ys ih =>
    intro st hn
    rw [upsertAll, List.foldl_cons]
    exact ih _ (upsert_hashesNodup sid y st hn)

theorem applyUpdateOne_hashesNodup (sid : String) (now : Nat)
    (acc : BulkResult × Store) (x : List Int) (hn : hashesNodup acc.2) :
    hashesNodup (applyUpdateOne sid now acc x).2 := by
  rw [applyUpdateOne]
  split
  · exact hn
  · rename_i hp
    rw [Bool.not_eq_true] at hp
    have hnm := hashPresent_false_not_mem hp
    rw [hashesNodup]
    simp only [List.map_append, List.map_cons, List.map_nil]
    exact List.Nodup.append hn (List.nodup_singleton _)
      (fun a ha hb => by
        simp only [List.mem_singleton] at hb
        exact hnm (hb ▸ ha))

theorem bulkFold_hashesNodup (sid : String) (now : Nat)
    (subs : List (List Int)) :
    ∀ acc, hashesNodup acc.2 →
      hashesNodup (subs.foldl (applyUpdateOne sid now) acc).2 := by
  induction subs with
  | nil => intro acc hn; exact hn
  | cons y ys ih =>
    intro acc hn
    rw [List.foldl_cons]
    exact ih _ (applyUpdateOne_hashesNodup sid now acc y hn)

theorem bulk_hashesNodup (sid : String) (subs : List (List Int)) (st : Store)
    (hn : hashesNodup st) :
    hashesNodup (insert_subsequences_bulk sid subs st).2 := by
  simp only [insert_subsequences_bulk]
  split
  · exact hn
  · exact bulkFold_hashesNodup sid st.now subs (⟨0, 0⟩, st) hn

/-! ### Generated ObjectId strings parse back -/

theorem length_hexPad : ∀ k n, (hexPad k n).length = k := by
  intro k
  induction k with
  | zero => intro n; rfl
  | succ k ih =>
    intro n
    rw [hexPad]
    simp [ih]

theorem mem_hexPad : ∀ k n, ∀ c ∈ hexPad k n,
    ∃ d, d < 16 ∧ c = Nat.digitChar d := by
  intro k
  induction k with
  | zero => intro n c hc; cases hc
  | succ k ih =>
    intro n c hc
    rw [hexPad] at hc
    rcases List.mem_append.1 hc with h1 | h1
    · exact ih _ c h1
    · simp only [List.mem_singleton] at h1
      exact ⟨n % 16, by omega, h1⟩

theorem isValidObjectId_oidString (n : Nat) :
    isValidObjectId (oidString n) = true := by
  rw [isValidObjectId, oidString]
  simp only [Bool.and_eq_true, beq_iff_eq]
  constructor
  · show (hexPad 24 n).length = 24
    exact length_hexPad 24 n
  · rw [List.all_eq_true]
    intro c hc
    obtain ⟨d, hd, rfl⟩ := mem_hexPad 24 n c hc
    clear hc
    revert hd
    revert d
    decide

/-! ### Unfolding `create_from_sequence` -/

theorem insert_sequence_fst (items : List Int) (st : Store) :
    (insert_sequence items st).1 = oidString st.nextId :=
  rfl

theorem insert_sequence_subsequences (items : List Int) (st : Store) :
    ((insert_sequence items st).2).subsequences = st.subsequences :=
  rfl

theorem insert_sequence_sequences (items : List Int) (st : Store) :
    ((insert_sequence items st).2).sequences =
      st.sequences ++ [⟨oidString st.nextId, items, st.now⟩] :=
  rfl

theorem create_ok_inv {items : List Int} {st st' : Store} {r : CreateResult}
    (h : create_from_sequence items st = (.ok r, st')) :
    1 ≤ (canonical_sequence items).length ∧
    (canonical_sequence items).length ≤ 18 ∧
    r = ⟨oidString st.nextId, canonical_sequence items,
      (generate_subsequences (canonical_sequence items)).length⟩ ∧
    st' =
      (if (generate_subsequences (canonical_sequence items)).length ≥ 100 then
        (insert_subsequences_bulk (oidString st.nextId)
          (generate_subsequences (canonical_sequence items))
          (insert_sequence (canonical_sequence items) st).2).2
      else
        upsertAll (oidString st.nextId)
          (generate_subsequences (canonical_sequence items))
          (insert_sequence (canonical_sequence items) st).2) := by
  simp only [create_from_sequence] at h
  split at h
  · exact absurd h (by simp)
  · split at h
    · exact absurd h (by simp)
    · rename_i h0 h18
      have h1 := congrArg Prod.fst h
      have h2 := congrArg Prod.snd h
      simp only [Prod.fst, Prod.snd] at h1 h2
      rw [show ((insert_sequence (canonical_sequence items) st).1) =
        oidString st.nextId from rfl] at h1 h2
      refine ⟨by omega, by omega, ?_, ?_⟩
      · rw [← (Except.ok.inj h1)]
      · rw [← h2, upsertAll]

theorem create_hashesNodup (items : List Int) (st : Store)
    (hn : hashesNodup st) :
    hashesNodup (create_from_sequence items st).2 := by
  simp only [create_from_sequence]
  split
  · exact hn
  · split
    · exact hn
    · dsimp only
      split
      · exact bulk_hashesNodup _ _ _ hn
      · exact upsertAll_hashesNodup _ _ _ hn

instance : DecidableRel sizeLex :=
  fun a b => decidable_of_iff
    (a.length < b.length ∨ (a.length = b.length ∧ List.Lex (· < ·) a b))
    Iff.rfl

theorem pow_lt_100_iff (n : Nat) : 2 ^ n - 1 < 100 ↔ n ≤ 6 := by
  constructor
  · intro h
    by_contra hn
    push_neg at hn
    have h7 : (2 : Nat) ^ 7 ≤ 2 ^ n := Nat.pow_le_pow_right (by omega) (by omega)
    have h128 : (2 : Nat) ^ 7 = 128 := by norm_num
    omega
  · intro h
    have h6 : (2 : Nat) ^ n ≤ 2 ^ 6 := Nat.pow_le_pow_right (by omega) h
    have h64 : (2 : Nat) ^ 6 = 64 := by norm_num
    omega

instance : DecidableEq (Except CreateError CreateResult) := fun a b =>
  match a, b with
  | .ok x, .ok y => decidable_of_iff (x = y) (by simp)
  | .error x, .error y => decidable_of_iff (x = y) (by simp)
  | .ok _, .error _ => isFalse (by simp)
  | .error _, .ok _ => isFalse (by simp)

/-! ## Claim theorems -/

/-- Claim C1, as stated, is false on the code: the hasher sorts but does
not deduplicate, so the list `[1, 1]` and its deduplicated form `[1]` have
equal sorted-deduplicated value sets yet different digests (their canonical
keys are `"1,1"` and `"1"`). -/
theorem C1_counterexample :
    canonical_sequence [1, 1] = canonical_sequence [1] ∧
    _hash_items [1, 1] ≠ _hash_items [1] := by
  decide

/-- Claim C1 (amended): the content hasher produces equal digests iff the
inputs are equal as multisets (same values with the same multiplicities),
independent of the order either was supplied in; a list with duplicated
values therefore hashes differently from its deduplicated form, though
order-independence does hold. -/
theorem C1_hash_eq_iff_multiset (X Y : List Int) :
    _hash_items X = _hash_items Y ↔ List.Perm X Y :=
  hash_items_eq_iff

/-- Claim C2: when the canonical length `n` exceeds 18,
`create_from_sequence` fails with the size-limit error reporting the actual
`n`, the limit 18 and the implied subset count 262,143, and the store is
untouched (the check precedes every persistence call and the enumeration). -/
theorem C2_size_limit (items : List Int) (st : Store)
    (h : (canonical_sequence items).length > 18) :
    create_from_sequence items st =
      (.error (.tooLarge (canonical_sequence items).length 18 262143), st) := by
  have he : (2 : Nat) ^ 18 - 1 = 262143 := by norm_num
  simp only [create_from_sequence]
  rw [if_neg (by omega), if_pos h, he]

theorem C2_size_limit_witness :
    (canonical_sequence
        [1, 2, 3, 4, 5, 6, 7, 8, 9, 10, 11, 12, 13, 14, 15, 16, 17, 18, 19]).length
      > 18 ∧
    create_from_sequence
        [1, 2, 3, 4, 5, 6, 7, 8, 9, 10, 11, 12, 13, 14, 15, 16, 17, 18, 19]
        ⟨[], [], 0, 0⟩ =
      (.error (.tooLarge
        (canonical_sequence
          [1, 2, 3, 4, 5, 6, 7, 8, 9, 10, 11, 12, 13, 14, 15, 16, 17, 18, 19]).length
        18 262143), ⟨[], [], 0, 0⟩) :=
  ⟨by decide,
   C2_size_limit
     [1, 2, 3, 4, 5, 6, 7, 8, 9, 10, 11, 12, 13, 14, 15, 16, 17, 18, 19]
     ⟨[], [], 0, 0⟩ (by decide)⟩

/-- Claim C7: canonicalization of a non-empty list is strictly ascending
and duplicate-free, and any two inputs with the same value set (permutations
or duplicate-paddings of the same distinct values) canonicalize equally. -/
theorem C7_canonicalizer (L L' : List Int) (h : L ≠ [])
    (hset : ∀ x, x ∈ L ↔ x ∈ L') :
    (canonical_sequence L).Sorted (· < ·) ∧
    (canonical_sequence L).Nodup ∧
    canonical_sequence L = canonical_sequence L' :=
  ⟨canonical_sorted_lt L, canonical_nodup L, canonical_eq_of_same_mem hset⟩

theorem C7_canonicalizer_witness :
    ([3, 1, 2, 2] : List Int) ≠ [] ∧
    (∀ x : Int, x ∈ ([3, 1, 2, 2] : List Int) ↔ x ∈ ([2, 3, 1, 1] : List Int)) ∧
    ((canonical_sequence [3, 1, 2, 2]).Sorted (· < ·) ∧
     (canonical_sequence [3, 1, 2, 2]).Nodup ∧
     canonical_sequence [3, 1, 2, 2] = canonical_sequence [2, 3, 1, 1]) :=
  ⟨by decide,
   fun x => by
     simp only [List.mem_cons, List.not_mem_nil, or_false]
     tauto,
   C7_canonicalizer [3, 1, 2, 2] [2, 3, 1, 1] (by decide)
     (fun x => by
       simp only [List.mem_cons, List.not_mem_nil, or_false]
       tauto)⟩

/-- Claim C10: the `total_subsequences` reported by a successful create is
always `2 ^ n - 1` for the canonical length `n`, computed purely from the
enumeration — for every starting store, so it is independent of how many
subsequence records the write phase actually persisted. -/
theorem C10_reported_total (items : List Int) (st st' : Store)
    (r : CreateResult) (h : create_from_sequence items st = (.ok r, st')) :
    r.total_subsequences = 2 ^ (canonical_sequence items).length - 1 ∧
    r.items = canonical_sequence items := by
  obtain ⟨-, -, hr, -⟩ := create_ok_inv h
  constructor
  · rw [hr]
    exact length_generate_subsequences _
  · rw [hr]

theorem C10_reported_total_witness :
    create_from_sequence [2, 1] ⟨[], [], 0, 0⟩ =
      (.ok ⟨oidString 0, [1, 2], 3⟩, (create_from_sequence [2, 1] ⟨[], [], 0, 0⟩).2) ∧
    ((⟨oidString 0, [1, 2], 3⟩ : CreateResult).total_subsequences =
        2 ^ (canonical_sequence [2, 1]).length - 1 ∧
      (⟨oidString 0, [1, 2], 3⟩ : CreateResult).items =
        canonical_sequence [2, 1]) :=
  ⟨by decide,
   C10_reported_total [2, 1] ⟨[], [], 0, 0⟩
     (create_from_sequence [2, 1] ⟨[], [], 0, 0⟩).2
     ⟨oidString 0, [1, 2], 3⟩ (by decide)⟩

/-- Claim C3: on a canonical (strictly ascending, hence duplicate-free)
input, the enumerator yields exactly `2 ^ n - 1` results, each non-empty
and sorted ascending, pairwise distinct, in the order "smaller size first,
lexicographic within a size group"; on the empty input it yields nothing. -/
theorem C3_enumerator (items : List Int) (h : items.Sorted (· < ·)) :
    (generate_subsequences items).length = 2 ^ items.length - 1 ∧
    (∀ c ∈ generate_subsequences items, c ≠ [] ∧ c.Sorted (· < ·)) ∧
    (generate_subsequences items).Pairwise sizeLex ∧
    (generate_subsequences items).Nodup ∧
    generate_subsequences ([] : List Int) = [] := by
  refine ⟨length_generate_subsequences items, ?_, ?_, ?_, rfl⟩
  · intro c hc
    obtain ⟨hne, hsub⟩ := mem_generate_subsequences hc
    exact ⟨hne, List.Pairwise.sublist hsub h⟩
  · exact pairwise_sizeLex_generate h
  · exact (pairwise_sizeLex_generate h).imp (fun hab => sizeLex_ne hab)

theorem C3_enumerator_witness :
    ([1, 2, 3] : List Int).Sorted (· < ·) ∧
    ((generate_subsequences [1, 2, 3]).length =
        2 ^ ([1, 2, 3] : List Int).length - 1 ∧
      (∀ c ∈ generate_subsequences [1, 2, 3], c ≠ [] ∧ c.Sorted (· < ·)) ∧
      (generate_subsequences [1, 2, 3]).Pairwise sizeLex ∧
      (generate_subsequences [1, 2, 3]).Nodup ∧
      generate_subsequences ([] : List Int) = []) :=
  ⟨by decide, C3_enumerator [1, 2, 3] (by decide)⟩

/-- Claim C4: submitting the same input twice adds exactly one Sequence
record in the second run and leaves the Subsequence collection exactly as
the first run left it (every second-run write is a silent no-op), and the
store's global hash-uniqueness invariant is preserved throughout. -/
theorem C4_idempotent (items : List Int) (st st1 st2 : Store)
    (r1 r2 : CreateResult)
    (h1 : create_from_sequence items st = (.ok r1, st1))
    (h2 : create_from_sequence items st1 = (.ok r2, st2)) :
    st2.sequences.length = st1.sequences.length + 1 ∧
    st2.subsequences = st1.subsequences ∧
    (hashesNodup st → hashesNodup st2) := by
  obtain ⟨-, -, -, hst1⟩ := create_ok_inv h1
  obtain ⟨-, -, -, hst2⟩ := create_ok_inv h2
  have hpresent1 : ∀ x ∈ generate_subsequences (canonical_sequence items),
      hashPresent (_hash_items x) st1 = true := by
    intro x hx
    rw [hst1]
    split
    · exact bulk_present _ _ _ x hx
    · exact upsertAll_present _ _ _ x hx
  have hpresent1b : ∀ x ∈ generate_subsequences (canonical_sequence items),
      hashPresent (_hash_items x)
        (insert_sequence (canonical_sequence items) st1).2 = true :=
    fun x hx => hpresent1 x hx
  refine ⟨?_, ?_, ?_⟩
  · rw [hst2]
    split
    · rw [bulk_sequences, insert_sequence_sequences]
      simp
    · rw [upsertAll_sequences, insert_sequence_sequences]
      simp
  · rw [hst2]
    split
    · exact (bulk_of_all_present _ _ _ hpresent1b).2.trans
        (insert_sequence_subsequences (canonical_sequence items) st1)
    · rw [upsertAll_of_all_present _ _ _ hpresent1b]
      exact insert_sequence_subsequences (canonical_sequence items) st1
  · intro hn
    have ha := create_hashesNodup items st hn
    rw [h1] at ha
    have hb := create_hashesNodup items st1 ha
    rw [h2] at hb
    exact hb

theorem C4_idempotent_witness :
    create_from_sequence [1, 2] ⟨[], [], 0, 0⟩ =
      (.ok ⟨oidString 0, [1, 2], 3⟩,
       (create_from_sequence [1, 2] ⟨[], [], 0, 0⟩).2) ∧
    create_from_sequence [1, 2] (create_from_sequence [1, 2] ⟨[], [], 0, 0⟩).2 =
      (.ok ⟨oidString 1, [1, 2], 3⟩,
       (create_from_sequence [1, 2]
         (create_from_sequence [1, 2] ⟨[], [], 0, 0⟩).2).2) ∧
    (((create_from_sequence [1, 2]
          (create_from_sequence [1, 2] ⟨[], [], 0, 0⟩).2).2).sequences.length =
        ((create_from_sequence [1, 2] ⟨[], [], 0, 0⟩).2).sequences.length + 1 ∧
      ((create_from_sequence [1, 2]
          (create_from_sequence [1, 2] ⟨[], [], 0, 0⟩).2).2).subsequences =
        ((create_from_sequence [1, 2] ⟨[], [], 0, 0⟩).2).subsequences ∧
      (hashesNodup ⟨[], [], 0, 0⟩ →
        hashesNodup (create_from_sequence [1, 2]
          (create_from_sequence [1, 2] ⟨[], [], 0, 0⟩).2).2)) :=
  ⟨by decide, by decide,
   C4_idempotent [1, 2] ⟨[], [], 0, 0⟩
     (create_from_sequence [1, 2] ⟨[], [], 0, 0⟩).2
     (create_from_sequence [1, 2]
       (create_from_sequence [1, 2] ⟨[], [], 0, 0⟩).2).2
     ⟨oidString 0, [1, 2], 3⟩ ⟨oidString 1, [1, 2], 3⟩
     (by decide) (by decide)⟩

/-- Claim C5: the write strategy of an accepted create is decided by the
total subsequence count `2 ^ n - 1` against the threshold 100 — strictly
below 100 (exactly when `n ≤ 6`) every subsequence goes through the
individual idempotent upsert loop; at or above 100 (`n ≥ 7`) all of them
are submitted in the single unordered batch of insert-if-absent-by-hash
operations. -/
theorem C5_write_strategy (items : List Int) (st : Store) (r : CreateResult)
    (st' : Store) (h : create_from_sequence items st = (.ok r, st')) :
    (generate_subsequences (canonical_sequence items)).length =
      2 ^ (canonical_sequence items).length - 1 ∧
    ((generate_subsequences (canonical_sequence items)).length < 100 ↔
      (canonical_sequence items).length ≤ 6) ∧
    ((generate_subsequences (canonical_sequence items)).length < 100 →
      st' = upsertAll r.id (generate_subsequences (canonical_sequence items))
        (insert_sequence (canonical_sequence items) st).2) ∧
    (100 ≤ (generate_subsequences (canonical_sequence items)).length →
      st' = (insert_subsequences_bulk r.id
        (generate_subsequences (canonical_sequence items))
        (insert_sequence (canonical_sequence items) st).2).2) := by
  obtain ⟨-, -, hr, hst⟩ := create_ok_inv h
  have hid : r.id = oidString st.nextId := by rw [hr]
  refine ⟨length_generate_subsequences _, ?_, ?_, ?_⟩
  · rw [length_generate_subsequences]
    exact pow_lt_100_iff _
  · intro hlt
    rw [hid, hst, if_neg (by omega)]
  · intro hge
    rw [hid, hst, if_pos (by omega)]

theorem C5_write_strategy_witness :
    create_from_sequence [1, 2] ⟨[], [], 0, 0⟩ =
      (.ok ⟨oidString 0, [1, 2], 3⟩,
       (create_from_sequence [1, 2] ⟨[], [], 0, 0⟩).2) ∧
    ((generate_subsequences (canonical_sequence [1, 2])).length =
        2 ^ (canonical_sequence [1, 2]).length - 1 ∧
      ((generate_subsequences (canonical_sequence [1, 2])).length < 100 ↔
        (canonical_sequence [1, 2]).length ≤ 6) ∧
      ((generate_subsequences (canonical_sequence [1, 2])).length < 100 →
        (create_from_sequence [1, 2] ⟨[], [], 0, 0⟩).2 =
          upsertAll (CreateResult.mk (oidString 0) [1, 2] 3).id
            (generate_subsequences (canonical_sequence [1, 2]))
            (insert_sequence (canonical_sequence [1, 2]) ⟨[], [], 0, 0⟩).2) ∧
      (100 ≤ (generate_subsequences (canonical_sequence [1, 2])).length →
        (create_from_sequence [1, 2] ⟨[], [], 0, 0⟩).2 =
          (insert_subsequences_bulk (CreateResult.mk (oidString 0) [1, 2] 3).id
            (generate_subsequences (canonical_sequence [1, 2]))
            (insert_sequence (canonical_sequence [1, 2]) ⟨[], [], 0, 0⟩).2).2)) :=
  ⟨by decide,
   C5_write_strategy [1, 2] ⟨[], [], 0, 0⟩ ⟨oidString 0, [1, 2], 3⟩
     (create_from_sequence [1, 2] ⟨[], [], 0, 0⟩).2 (by decide)⟩

/-- Claim C6: for any store contents and any limit in `[1, 50]`,
`list_latest` returns at most `limit` groups, the grouped collection it
draws from is ordered by maximal subsequence creation time descending, and
every returned group's `sub_sequences` list is sorted by ascending length
then lexicographic order — whatever order the store held the records in. -/
theorem C6_list_latest (st : Store) (limit : Nat) (h1 : 1 ≤ limit)
    (h2 : limit ≤ 50) :
    (list_latest limit st).length ≤ limit ∧
    (sortedGroups st).Pairwise groupGe ∧
    ∀ item ∈ list_latest limit st, item.sub_sequences.Pairwise subKeyLe := by
  refine ⟨?_, ?_, ?_⟩
  · rw [list_latest, List.length_map, latest_grouped]
    have ha := List.length_filterMap_le
      (fun g : AggGroup =>
        match st.sequences.find? (fun sq => sq.oid == toOidStr g.key) with
        | some sq => some (sq.items, g.subsequences)
        | none => none)
      ((sortedGroups st).take limit)
    have hb : ((sortedGroups st).take limit).length ≤ limit := by
      rw [List.length_take]
      omega
    omega
  · exact List.sorted_insertionSort groupGe _
  · intro item hitem
    obtain ⟨p, _, rfl⟩ := List.mem_map.1 hitem
    exact List.sorted_insertionSort subKeyLe p.2

theorem C6_list_latest_witness :
    1 ≤ 5 ∧ (5 : Nat) ≤ 50 ∧
    ((list_latest 5
        ⟨[⟨oidString 0, [1, 2], 0⟩],
         [⟨[2], _hash_items [2], .oid (oidString 0), 1⟩,
          ⟨[1], _hash_items [1], .oid (oidString 0), 2⟩,
          ⟨[1, 2], _hash_items [1, 2], .oid (oidString 0), 3⟩],
         1, 4⟩).length ≤ 5 ∧
      (sortedGroups
        ⟨[⟨oidString 0, [1, 2], 0⟩],
         [⟨[2], _hash_items [2], .oid (oidString 0), 1⟩,
          ⟨[1], _hash_items [1], .oid (oidString 0), 2⟩,
          ⟨[1, 2], _hash_items [1, 2], .oid (oidString 0), 3⟩],
         1, 4⟩).Pairwise groupGe ∧
      ∀ item ∈ list_latest 5
        ⟨[⟨oidString 0, [1, 2], 0⟩],
         [⟨[2], _hash_items [2], .oid (oidString 0), 1⟩,
          ⟨[1], _hash_items [1], .oid (oidString 0), 2⟩,
          ⟨[1, 2], _hash_items [1, 2], .oid (oidString 0), 3⟩],
         1, 4⟩, item.sub_sequences.Pairwise subKeyLe) :=
  ⟨by decide, by decide,
   C6_list_latest
     ⟨[⟨oidString 0, [1, 2], 0⟩],
      [⟨[2], _hash_items [2], .oid (oidString 0), 1⟩,
       ⟨[1], _hash_items [1], .oid (oidString 0), 2⟩,
       ⟨[1, 2], _hash_items [1, 2], .oid (oidString 0), 3⟩],
      1, 4⟩ 5 (by decide) (by decide)⟩

/-- Claim C8: the bulk writer returns 0 without touching the store on an
empty list; on a non-empty list it submits one insert-if-absent-by-hash
operation per subsequence as a single unordered batch and returns
`upserted_count + modified_count`, where `modified_count` is always 0 and
the sum equals the number of records actually newly created (the growth of
the subsequences collection). -/
theorem C8_bulk_contract (sid : String) (subs : List (List Int)) (st : Store)
    (h : subs ≠ []) :
    insert_subsequences_bulk sid [] st = (0, st) ∧
    (insert_subsequences_bulk sid subs st).1 =
      ((subs.foldl (applyUpdateOne sid st.now) (⟨0, 0⟩, st)).1).upserted_count +
        ((subs.foldl (applyUpdateOne sid st.now) (⟨0, 0⟩, st)).1).modified_count ∧
    ((subs.foldl (applyUpdateOne sid st.now) (⟨0, 0⟩, st)).1).modified_count =
      0 ∧
    (insert_subsequences_bulk sid subs st).1 + st.subsequences.length =
      ((insert_subsequences_bulk sid subs st).2).subsequences.length := by
  refine ⟨rfl, ?_, bulk_modified_zero sid subs st,
    bulk_count_eq_growth sid subs st⟩
  cases subs with
  | nil => exact absurd rfl h
  | cons a as => rfl

theorem C8_bulk_contract_witness :
    ([[1], [2]] : List (List Int)) ≠ [] ∧
    (insert_subsequences_bulk (oidString 0) [] ⟨[], [], 0, 0⟩ =
        (0, ⟨[], [], 0, 0⟩) ∧
      (insert_subsequences_bulk (oidString 0) [[1], [2]] ⟨[], [], 0, 0⟩).1 =
        ((([[1], [2]] : List (List Int)).foldl
            (applyUpdateOne (oidString 0) (Store.now ⟨[], [], 0, 0⟩))
            (⟨0, 0⟩, ⟨[], [], 0, 0⟩)).1).upserted_count +
          ((([[1], [2]] : List (List Int)).foldl
            (applyUpdateOne (oidString 0) (Store.now ⟨[], [], 0, 0⟩))
            (⟨0, 0⟩, ⟨[], [], 0, 0⟩)).1).modified_count ∧
      ((([[1], [2]] : List (List Int)).foldl
          (applyUpdateOne (oidString 0) (Store.now ⟨[], [], 0, 0⟩))
          (⟨0, 0⟩, ⟨[], [], 0, 0⟩)).1).modified_count = 0 ∧
      (insert_subsequences_bulk (oidString 0) [[1], [2]] ⟨[], [], 0, 0⟩).1 +
          (Store.subsequences ⟨[], [], 0, 0⟩).length =
        ((insert_subsequences_bulk (oidString 0) [[1], [2]]
          ⟨[], [], 0, 0⟩).2).subsequences.length) :=
  ⟨by decide,
   C8_bulk_contract (oidString 0) [[1], [2]] ⟨[], [], 0, 0⟩ (by decide)⟩

/-- Claim C9: the stored type of `sequence_id` depends on the write path —
the individual-upsert path stores the parsed ObjectId (falling back to the
raw string only if parsing fails), while the bulk path always stores the
raw string; since an accepted create picks the path solely by whether the
subsequence count reaches 100, the same logical back-reference ends up with
a different stored type depending only on that volume. -/
theorem C9_sequence_id_representation (s : String) (items : List Int)
    (st st' : Store) (r : CreateResult)
    (h : create_from_sequence items st = (.ok r, st')) :
    (isValidObjectId s = true → upsert_seq_id_value s = .oid s) ∧
    (isValidObjectId s = false → upsert_seq_id_value s = .str s) ∧
    isValidObjectId r.id = true ∧
    (∀ t u : String, BsonId.oid t ≠ BsonId.str u) ∧
    (r.total_subsequences < 100 →
      ∀ rec ∈ st'.subsequences, rec ∉ st.subsequences →
        rec.sequence_id = .oid r.id) ∧
    (100 ≤ r.total_subsequences →
      ∀ rec ∈ st'.subsequences, rec ∉ st.subsequences →
        rec.sequence_id = .str r.id) := by
  obtain ⟨-, -, hr, hst⟩ := create_ok_inv h
  have hid : r.id = oidString st.nextId := by rw [hr]
  have htot : r.total_subsequences =
      (generate_subsequences (canonical_sequence items)).length := by
    rw [hr]
  refine ⟨?_, ?_, ?_, ?_, ?_, ?_⟩
  · intro hv
    rw [upsert_seq_id_value, if_pos hv]
  · intro hv
    rw [upsert_seq_id_value, if_neg (by simp [hv])]
  · rw [hid]
    exact isValidObjectId_oidString _
  · intro t u hne
    exact BsonId.noConfusion hne
  · intro hlt rec hrec hnotin
    rw [hst, if_neg (by omega)] at hrec
    rcases upsertAll_mem _ _ _ rec hrec with hmem | hidv
    · exact absurd hmem hnotin
    · rw [hid, hidv, upsert_seq_id_value, if_pos (isValidObjectId_oidString _)]
  · intro hge rec hrec hnotin
    rw [hst, if_pos (by omega)] at hrec
    rcases bulk_mem _ _ _ rec hrec with hmem | hidv
    · exact absurd hmem hnotin
    · rw [hid]
      exact hidv

theorem C9_sequence_id_representation_witness :
    create_from_sequence [1, 2] ⟨[], [], 0, 0⟩ =
      (.ok ⟨oidString 0, [1, 2], 3⟩,
       (create_from_sequence [1, 2] ⟨[], [], 0, 0⟩).2) ∧
    ((isValidObjectId (oidString 7) = true →
        upsert_seq_id_value (oidString 7) = .oid (oidString 7)) ∧
      (isValidObjectId (oidString 7) = false →
        upsert_seq_id_value (oidString 7) = .str (oidString 7)) ∧
      isValidObjectId (CreateResult.mk (oidString 0) [1, 2] 3).id = true ∧
      (∀ t u : String, BsonId.oid t ≠ BsonId.str u) ∧
      ((CreateResult.mk (oidString 0) [1, 2] 3).total_subsequences < 100 →
        ∀ rec ∈ ((create_from_sequence [1, 2] ⟨[], [], 0, 0⟩).2).subsequences,
          rec ∉ (Store.subsequences ⟨[], [], 0, 0⟩) →
            rec.sequence_id = .oid (CreateResult.mk (oidString 0) [1, 2] 3).id) ∧
      (100 ≤ (CreateResult.mk (oidString 0) [1, 2] 3).total_subsequences →
        ∀ rec ∈ ((create_from_sequence [1, 2] ⟨[], [], 0, 0⟩).2).subsequences,
          rec ∉ (Store.subsequences ⟨[], [], 0, 0⟩) →
            rec.sequence_id = .str (CreateResult.mk (oidString 0) [1, 2] 3).id)) :=
  ⟨by decide,
   C9_sequence_id_representation (oidString 7) [1, 2] ⟨[], [], 0, 0⟩
     (create_from_sequence [1, 2] ⟨[], [], 0, 0⟩).2
     ⟨oidString 0, [1, 2], 3⟩ (by decide)⟩
